import Mathlib

/-!
Verification development for the mpmath floating-point kernel
(`trunk/mpmath/lib/floatop.py`) and the `Real`/`Complex` type layer
(`mpmath/mpmath.py`).

A floating-point value is the canonical triple `(man, exp, bc)` meaning
`man * 2^exp`, where `bc` is the bit length of `|man|`.  Python arbitrary
precision integers are embedded as `Int`; Python `%` on a positive modulus
is `Int.emod` (the `%` of Lean's `Int`), Python `//` and `>>` are floor
division, embedded as `Int.fdiv`; Python `<<` is multiplication by a power
of two.
-/

namespace Mpmath

/-- A floating-point value: the Python tuple `(man, exp, bc)`. -/
abbrev MPF := Int × Int × Int

/-- Modelled from the spec: RoundingPolicy is one of
`{Up, Down, Floor, Ceiling, HalfUp, HalfDown, HalfEven}`.  The numeric
codes of the `ROUND_*` constants live in the (absent) `util` module; the
kernel only tests `rounding > 4` for "nearby rounding", so the half modes
carry the codes 5, 6, 7 and the directed modes the codes 1..4. -/
inductive Rounding where
  | down
  | up
  | floor
  | ceiling
  | half_down
  | half_up
  | half_even
deriving DecidableEq, Repr

/-- The integer value of a `ROUND_*` constant (see `Rounding`). -/
def Rounding.code : Rounding → Int
  | .down => 1
  | .up => 2
  | .floor => 3
  | .ceiling => 4
  | .half_down => 5
  | .half_up => 6
  | .half_even => 7

/-- Fuel-driven helper for `bitcount`: number of binary digits of `n`. -/
def bitsAux : Nat → Nat → Nat
  | 0, _ => 0
  | fuel + 1, n => if n = 0 then 0 else bitsAux fuel (n / 2) + 1

/-- Modelled from the spec: `bitcount(man)` from the (absent) `util`
module returns the exact bit-length of `|man|` (glossary: "Bitcount: the
bit-length of the mantissa's absolute value").  `bitcount2` is the same
function, optimized for small inputs. -/
def bitcount (man : Int) : Int :=
  (bitsAux man.natAbs man.natAbs : Int)

/-- Fuel-driven helper for `trailing_zeros`. -/
def tzAux : Nat → Nat → Nat
  | 0, _ => 0
  | fuel + 1, n => if n % 2 = 1 ∨ n = 0 then 0 else tzAux fuel (n / 2) + 1

/-- Modelled from the spec: `trailing_zeros(man)` from the (absent)
`util` module counts the trailing zero bits of the mantissa ("strip
trailing zero bits from mantissa, decreasing bitcount by the stripped
count").  On a negative mantissa the two's-complement trailing zeros
equal those of the absolute value. -/
def trailing_zeros (man : Int) : Nat :=
  tzAux man.natAbs man.natAbs

/-- Whether the rounded right shift rounds the magnitude away from zero:
`m` is the magnitude, `k ≥ 1` the shifted-out bit count, `neg` the sign
of the full number (it matters only to `Floor`/`Ceiling`). -/
def rshift_away (m k : Nat) (r : Rounding) (neg : Bool) : Bool :=
  let q := m / 2 ^ k
  let guard := m / 2 ^ (k - 1) % 2
  let sticky := decide (m % 2 ^ (k - 1) ≠ 0)
  let anyDropped := decide (m % 2 ^ k ≠ 0)
  match r with
  | .down => false
  | .up => anyDropped
  | .floor => neg && anyDropped
  | .ceiling => !neg && anyDropped
  | .half_down => guard == 1 && sticky
  | .half_up => guard == 1
  | .half_even => guard == 1 && (sticky || q % 2 == 1)

/-- Magnitude part of the rounded right shift: drop `k ≥ 1` bits of `m`,
rounding per `r`. -/
def rshiftMag (m k : Nat) (r : Rounding) (neg : Bool) : Nat :=
  if rshift_away m k r neg then m / 2 ^ k + 1 else m / 2 ^ k

/-- Modelled from the spec: `rshift(x, k, rounding)` from the (absent)
`util` module, the "rounded right-shift by `k` bits": split the dropped
`k` bits into a guard bit (highest dropped) and a sticky flag (OR of all
lower dropped bits); `Down` discards, `Up` rounds away from zero whenever
any dropped bit is set, `HalfUp` rounds away when the guard bit is set,
`HalfDown` rounds away only when guard and sticky are both set, and
`HalfEven` rounds to an even retained mantissa on an exact tie, otherwise
like `HalfUp`; `Floor` always rounds toward minus infinity and `Ceiling`
toward plus infinity. -/
def rshift (x : Int) (k : Nat) (r : Rounding) : Int :=
  if k = 0 then x
  else
    let q := rshiftMag x.natAbs k r (decide (x < 0))
    if x < 0 then -(q : Int) else (q : Int)

/-- First phase of `floatop.normalize`: count the bits of the mantissa
and, when the count exceeds `prec`, right-shift with rounding and adjust
the exponent; recount the bits of the shifted mantissa, looking at its
last 3 bits to avoid a recount in most cases (`if man & 7: bc = prec`). -/
def normalize_shift (man exp prec : Int) (r : Rounding) : MPF :=
  let bc := bitcount man
  if bc > prec then
    let man1 := rshift man (bc - prec).toNat r
    let bc1 := if man1 % 8 ≠ 0 then prec else bitcount man1
    (man1, exp + (bc - prec), bc1)
  else (man, exp, bc)

/-- Second phase of `floatop.normalize`: strip the trailing zero bits
from the mantissa (`if not man & 1: ... man >>= tr`), moving them into
the exponent and decreasing the bitcount. -/
def normalize_strip (x : MPF) : MPF :=
  if x.1 % 2 = 0 then
    let tr := trailing_zeros x.1
    if tr ≠ 0 then (Int.fdiv x.1 (2 ^ tr), x.2.1 + (tr : Int), x.2.2 - (tr : Int))
    else x
  else x

/-- `floatop.normalize(man, exp, prec, rounding)`: round `man * 2^exp` to
at most `prec` mantissa bits, strip trailing zero bits, count bits.
(`bitcount2`, used by the source for `prec < 100`, is the same function
as `bitcount`.) -/
def normalize (man exp prec : Int) (r : Rounding) : MPF :=
  if man = 0 then (0, 0, 0)
  else
    let s2 := normalize_strip (normalize_shift man exp prec r)
    if s2.1 = 0 then (0, 0, 0) else s2

/-- `floatop.fzero`. -/
def fzero : MPF := (0, 0, 0)

/-- `floatop.fone`. -/
def fone : MPF := (1, 0, 1)

/-- `floatop.ftwo`. -/
def ftwo : MPF := (1, 1, 1)

/-- `floatop.fhalf`. -/
def fhalf : MPF := (1, -1, 1)

/-- `floatop.feq`: tuple comparison of normalized values. -/
def feq (s t : MPF) : Bool :=
  decide (s = t)

/-- Python's builtin `cmp`: -1, 0 or 1. -/
def pycmp (a b : Int) : Int :=
  if a < b then -1 else if b < a then 1 else 0

/-- `floatop.fpos`. -/
def fpos (x : MPF) (prec : Int) (r : Rounding) : MPF :=
  normalize x.1 x.2.1 prec r

/-- Body of `floatop.fadd` after the initial swap that puts the operand
with the higher exponent first. -/
def fadd_core (s t : MPF) (prec : Int) (r : Rounding) : MPF :=
  let (sman, sexp, sbc) := s
  let (tman, texp, tbc) := t
  if tman = 0 then normalize sman sexp prec r
  else if sman = 0 then normalize tman texp prec r
  else if sexp - texp > 10 ∧ (sbc + sexp) - (tbc + texp) > prec + 5 then
    if r.code > 4 then normalize sman sexp prec r
    else
      let bitdelta := (sbc + sexp) - (tbc + texp)
      let offset := min (bitdelta + 3) (prec + 3)
      let sman1 := sman * 2 ^ offset.toNat
      let sman2 := if tman > 0 then sman1 + 1 else sman1 - 1
      normalize sman2 (sexp - offset) prec r
  else normalize (tman + sman * 2 ^ (sexp - texp).toNat) texp prec r

/-- `floatop.fadd`: floating-point addition rounded to `prec` bits. -/
def fadd (s t : MPF) (prec : Int) (r : Rounding) : MPF :=
  if t.2.1 > s.2.1 then fadd_core t s prec r else fadd_core s t prec r

/-- The general path of `floatop.fadd` (swap, zero short-circuits, then
align exponents, add the mantissas exactly and normalize), without the
large-exponent-gap shortcut branch. -/
def fadd_general_core (s t : MPF) (prec : Int) (r : Rounding) : MPF :=
  let (sman, sexp, _sbc) := s
  let (tman, texp, _tbc) := t
  if tman = 0 then normalize sman sexp prec r
  else if sman = 0 then normalize tman texp prec r
  else normalize (tman + sman * 2 ^ (sexp - texp).toNat) texp prec r

/-- `fadd_general`: exponent-aligned exact addition followed by
normalization, the reference computation the shortcut branch of `fadd`
is claimed to agree with. -/
def fadd_general (s t : MPF) (prec : Int) (r : Rounding) : MPF :=
  if t.2.1 > s.2.1 then fadd_general_core t s prec r else fadd_general_core s t prec r

/-- `floatop.fneg_noround`: negate without normalizing. -/
def fneg_noround (s : MPF) : MPF :=
  (-s.1, s.2.1, s.2.2)

/-- `floatop.fsub`: `fadd(s, (-t.man, t.exp, t.bc))`. -/
def fsub (s t : MPF) (prec : Int) (r : Rounding) : MPF :=
  fadd s (fneg_noround t) prec r

/-- `floatop.fneg`: negate and round. -/
def fneg (s : MPF) (prec : Int) (r : Rounding) : MPF :=
  normalize (-s.1) s.2.1 prec r

/-- `floatop.fabs`. -/
def fabs (s : MPF) (prec : Int) (r : Rounding) : MPF :=
  if s.1 < 0 then normalize (-s.1) s.2.1 prec r else normalize s.1 s.2.1 prec r

/-- `floatop.fcmp`: return -1 if `s < t`, 0 if `s == t`, 1 if `s > t`.
The line `if a < b: return -1` in the negative-mantissa branch of the
source repeats the already-tested condition and is transcribed as is. -/
def fcmp (s t : MPF) : Int :=
  let (sman, sexp, sbc) := s
  let (tman, texp, tbc) := t
  if tman = 0 then pycmp sman 0
  else if sman = 0 then pycmp 0 tman
  else if sman > 0 ∧ tman < 0 then 1
  else if sman < 0 ∧ tman > 0 then -1
  else if sexp = texp then pycmp sman tman
  else
    let a := sbc + sexp
    let b := tbc + texp
    if sman > 0 then
      if a < b then -1
      else if b < a then 1
      else pycmp (fsub s t 5 .floor).1 0
    else
      if a < b then 1
      else if a < b then -1
      else pycmp (fsub s t 5 .floor).1 0

/-- `floatop.fmul`: multiply mantissas, add exponents, normalize. -/
def fmul (s t : MPF) (prec : Int) (r : Rounding) : MPF :=
  normalize (s.1 * t.1) (s.2.1 + t.2.1) prec r

/-- Errors a Python-level operation can raise. -/
inductive PyError where
  | zeroDivision
  | typeError
  | nameError (n : String)
  | overflowError
deriving DecidableEq, Repr

/-- `floatop.fdiv`: pad the dividend mantissa, floor-divide the
mantissas, normalize.  The mantissa division `//` is Python integer
division, which raises `ZeroDivisionError` on a zero divisor; there is
no explicit zero check in the source. -/
def fdiv (s t : MPF) (prec : Int) (r : Rounding) : Except PyError MPF :=
  let (sman, sexp, sbc) := s
  let (tman, texp, tbc) := t
  let extra0 := prec - sbc + tbc + 12
  let extra := if extra0 < 12 then 12 else extra0
  if tman = 0 then .error .zeroDivision
  else .ok (normalize (Int.fdiv (sman * 2 ^ extra.toNat) tman) (sexp - texp - extra) prec r)

/-- `floatop.fdiv2_noround`. -/
def fdiv2_noround (s : MPF) : MPF :=
  if s.1 = 0 then s else (s.1, s.2.1 - 1, s.2.2)

/-- Modelled from the spec: the guard-bit count `int(4*math.log(n,2)+4)`
of `fpow` ("working precision inflated by ≈ 4·log2(|n|) + 4 extra
bits").  The source computes the logarithm in double precision; this
model uses the exact `⌊log2 (n^4)⌋ + 4`, which agrees with the double
computation for every `n` whose fourth power is not within one double
rounding unit of a power of two, in particular for all small `n`. -/
def fpow_extra (n : Nat) : Int :=
  (Nat.log 2 (n ^ 4) : Int) + 4

/-- The binary-exponentiation loop of `floatop.fpow`: repeated squaring
with every intermediate product normalized to `prec2` bits with floor
rounding.  The loop variable strictly decreases, so fuel `n` suffices. -/
def fpow_loop : Nat → Nat → MPF → MPF → Int → MPF
  | 0, _, _, p, _ => p
  | fuel + 1, n, b, p, prec2 =>
    if n = 0 then p
    else
      let p1 := if n % 2 = 1 then normalize (p.1 * b.1) (p.2.1 + b.2.1) prec2 .floor else p
      let n1 := if n % 2 = 1 then n - 1 else n
      let b1 := normalize (b.1 * b.1) (b.2.1 + b.2.1) prec2 .floor
      fpow_loop fuel (n1 / 2) b1 p1 prec2

/-- `floatop.fpow` restricted to a nonnegative exponent: the `n = 0`,
`n = 1`, `n = 2` special cases and the binary-exponentiation general
case (all pure). -/
def fpow_nonneg (s : MPF) (n : Nat) (prec : Int) (r : Rounding) : MPF :=
  if n = 0 then fone
  else if n = 1 then normalize s.1 s.2.1 prec r
  else if n = 2 then fmul s s prec r
  else
    let prec2 := prec + fpow_extra n
    let b := normalize s.1 s.2.1 prec2 .floor
    let p := fpow_loop n n b fone prec2
    normalize p.1 p.2.1 prec r

/-- `floatop.fpow`: integer powers.  `n = -1` inverts directly; other
negative exponents recurse on `|n|` at precision `prec + 3` with floor
rounding, then invert. -/
def fpow (s : MPF) (n : Int) (prec : Int) (r : Rounding) : Except PyError MPF :=
  if 0 ≤ n then .ok (fpow_nonneg s n.toNat prec r)
  else if n = -1 then fdiv fone s prec r
  else fdiv fone (fpow_nonneg s n.natAbs (prec + 3) .floor) prec r

/-! ### The FloatValue invariants -/

/-- A canonically represented FloatValue: zero is `(0, 0, 0)`; a nonzero
mantissa is odd and the `bc` field is the exact bit-length of its
absolute value. -/
def IsNormal (x : MPF) : Prop :=
  (x.1 = 0 → x = (0, 0, 0)) ∧ (x.1 ≠ 0 → x.1 % 2 = 1 ∧ x.2.2 = bitcount x.1)

/-- `IsNormal` plus the precision bound: the bitcount of a nonzero value
never exceeds the precision used to produce it. -/
def NormalizedAt (prec : Int) (x : MPF) : Prop :=
  IsNormal x ∧ (x.1 ≠ 0 → x.2.2 ≤ prec)

instance (x : MPF) : Decidable (IsNormal x) := by
  unfold IsNormal; infer_instance

instance (prec : Int) (x : MPF) : Decidable (NormalizedAt prec x) := by
  unfold NormalizedAt; infer_instance

/-- The `bc` field of a nonzero value is the exact bit-length (the part
of the invariants the magnitude estimates of `fcmp` and `fadd` rely
on). -/
def BCok (x : MPF) : Prop :=
  x.1 ≠ 0 → x.2.2 = bitcount x.1

/-- The real number represented by a FloatValue: `man * 2^exp`. -/
def fval (x : MPF) : ℚ :=
  (x.1 : ℚ) * (2 : ℚ) ^ x.2.1

/-- Three-way comparison of rationals, with Python's `cmp` convention. -/
def ratCmp (a b : ℚ) : Int :=
  if a < b then -1 else if b < a then 1 else 0

/-! ### The `Real`/`Complex` type layer (`mpmath/mpmath.py`) -/

/-- The kinds of Python values the `mpf` comparison layer dispatches on:
`mpf` itself, native ints, native finite floats (dyadic, `man * 2^exp`),
native complex numbers (a pair of dyadic components), `mpc`, strings,
and any unrecognized kind (`pyOther`, e.g. a generic sequence). -/
inductive PyObj where
  | pyMpf (v : MPF)
  | pyInt (n : Int)
  | pyFloat (man exp : Int)
  | pyComplex (rman rexp iman iexp : Int)
  | pyMpc (re im : MPF)
  | pyStr (s : String)
  | pyOther
deriving DecidableEq, Repr

/-- Modelled from the spec: `float_from_pyfloat` of the (absent) lib —
native floats are dyadic and convert through `normalize`. -/
def float_from_pyfloat (man exp prec : Int) (r : Rounding) : MPF :=
  normalize man exp prec r

/-- Modelled from the spec: `float_from_int` of the (absent) lib —
"plain integers take a fast path (integer mantissa, exponent 0)". -/
def float_from_int (n prec : Int) (r : Rounding) : MPF :=
  normalize n 0 prec r

/-- Modelled from the spec: `decimal_to_binary` of the (absent) lib
parses a decimal string.  No claim exercises this path (the comparison
layer short-circuits strings before converting), so the model parses
only integer-valued literals and rejects the rest. -/
def decimal_to_binary (s : String) (prec : Int) (r : Rounding) : Except PyError MPF :=
  match s.toInt? with
  | some n => .ok (normalize n 0 prec r)
  | none => .error .typeError

/-- `mpmath._convert`: convert a non-`mpf` value to mpf data, raising
`TypeError` on an unrecognized kind. -/
def _convert (prec : Int) (r : Rounding) : PyObj → Except PyError MPF
  | .pyFloat m e => .ok (float_from_pyfloat m e prec r)
  | .pyInt n => .ok (float_from_int n prec r)
  | .pyStr s => decimal_to_binary s prec r
  | _ => .error .typeError

/-- `mpf.__new__` on a non-tuple argument: an `mpf` re-normalizes at the
context precision, anything else goes through `_convert`. -/
def mpf_new (prec : Int) (r : Rounding) (t : PyObj) : Except PyError MPF :=
  match t with
  | .pyMpf v => .ok (normalize v.1 v.2.1 prec r)
  | t' => _convert prec r t'

/-- `mpf.__eq__(s, t)` for an `mpf` with data `sval`: `mpf` compares
triples; complex-valued operands promote `s` to `mpc` and compare
component-wise (`mpc(s) = (mpf(s), mpf(0))`); strings are never numeric
and compare unequal; anything else is converted, and a conversion
failure is swallowed into `False`. -/
def mpf_eq (sval : MPF) (prec : Int) (r : Rounding) (t : PyObj) : Except PyError Bool :=
  match t with
  | .pyMpf tv => .ok (decide (sval = tv))
  | .pyMpc tre tim =>
    .ok (decide (normalize sval.1 sval.2.1 prec r = tre ∧ fzero = tim))
  | .pyComplex rm re im ie =>
    .ok (decide (normalize sval.1 sval.2.1 prec r = normalize rm re prec r ∧
      fzero = normalize im ie prec r))
  | .pyStr _ => .ok false
  | t' =>
    match mpf_new prec r t' with
    | .ok tv => .ok (decide (sval = tv))
    | .error _ => .ok false

/-- `mpf.__ne__(s, t)`: mirror image of `mpf_eq`, except that after a
successful conversion the source converts once more (`t = mpf(t)` on the
line after the `try` block), re-rounding the converted value. -/
def mpf_ne (sval : MPF) (prec : Int) (r : Rounding) (t : PyObj) : Except PyError Bool :=
  match t with
  | .pyMpf tv => .ok (decide (sval ≠ tv))
  | .pyMpc tre tim =>
    .ok (decide (¬(normalize sval.1 sval.2.1 prec r = tre ∧ fzero = tim)))
  | .pyComplex rm re im ie =>
    .ok (decide (¬(normalize sval.1 sval.2.1 prec r = normalize rm re prec r ∧
      fzero = normalize im ie prec r)))
  | .pyStr _ => .ok true
  | t' =>
    match mpf_new prec r t' with
    | .ok tv => .ok (decide (sval ≠ normalize tv.1 tv.2.1 prec r))
    | .error _ => .ok true

/-- Modelled from the spec: `float(s)` (`float_to_pyfloat` of the absent
lib) raises `OverflowError` exactly when the magnitude exceeds the
native floating-point range; the magnitude's most significant bit sits
at position `bc + exp`, and the native range ends at `2^1024`. -/
def float_overflows (v : MPF) : Bool :=
  decide (1024 < v.2.2 + v.2.1)

/-- The parameter list of `mpf.__hash__` (mpmath.py line 83: the function
is declared `def __hash__(s)`). -/
def mpf_hash_params : List String := ["s"]

/-- The free variable of the fallback expression `hash(self.val)` in the
`except OverflowError` branch of `mpf.__hash__` (line 91). -/
def mpf_hash_fallback_var : String := "self"

/-- `mpf.__hash__`: try `hash(float(s))`; on `OverflowError` the source
falls back to `return hash(self.val)` — but the function's parameter is
named `s`, so the branch resolves the name `self`, which only succeeds
if it is bound in scope; an unbound name raises `NameError`.
`hashFloat` and `hashTriple` abstract Python's hashes of a native float
and of a tuple. -/
def mpf_hash (hashFloat : MPF → Int) (hashTriple : MPF → Int) (v : MPF) :
    Except PyError Int :=
  if float_overflows v = false then .ok (hashFloat v)
  else if mpf_hash_params.contains mpf_hash_fallback_var then .ok (hashTriple v)
  else .error (.nameError mpf_hash_fallback_var)

/-- The four ordering relations. -/
inductive CmpOp where
  | lt
  | le
  | gt
  | ge
deriving DecidableEq, Repr

/-- The special-method slot an ordering operator dispatches to. -/
def opSlot : CmpOp → String
  | .lt => "__lt__"
  | .le => "__le__"
  | .gt => "__gt__"
  | .ge => "__ge__"

/-- The reflected operator tried on the right operand when the left
operand's class does not define the slot. -/
def reflectedOp : CmpOp → CmpOp
  | .lt => .gt
  | .gt => .lt
  | .le => .ge
  | .ge => .le

/-- The rich-comparison slot assignments executed in the body of class
`mpc` (mpmath.py lines 325–328), in source order:
`__gt__ = _compare`, `__le__ = _compare`, `__gt__ = _compare`,
`__ge__ = _compare`.  The source assigns `__gt__` twice and never
assigns `__lt__`. -/
def mpc_cmp_assignments : List String := ["__gt__", "__le__", "__gt__", "__ge__"]

/-- Whether class `mpc` defines the given rich-comparison slot. -/
def mpc_defines (slot : String) : Bool :=
  mpc_cmp_assignments.contains slot

/-- Modelled from Python 2 semantics: evaluating `a op b` on two `mpc`
operands calls `a.<slot>(b)` when the class defines the slot; otherwise
it calls the reflected slot on `b`; only when neither is defined does it
fall back to the silent default object comparison.  `mpc._compare`
raises `TypeError("no ordering relation is defined for complex
numbers")` for any arguments, so any dispatch that reaches a defined
slot errors out. -/
def mpcRichCompare (op : CmpOp) (defaultResult : Bool) : Except PyError Bool :=
  if mpc_defines (opSlot op) then .error .typeError
  else if mpc_defines (opSlot (reflectedOp op)) then .error .typeError
  else .ok defaultResult

/-- The Halley refinement loop of `functions.lambertw` (lines
1865–1875), abstracted over the iteration step and the convergence test
(the source's step computes `w - (w*e^w - z)/(...)` at the elevated
working precision, and accepts when `|wn - w| < weps * |wn|`).  Returns
the convergence flag together with the final iterate; the source's
`for i in xrange(100)` loop gives fuel 100. -/
def lambertw_halley {α : Type} (step : α → α) (accept : α → α → Bool) :
    Nat → α → Bool × α
  | 0, w => (false, w)
  | fuel + 1, w =>
    let wn := step w
    if accept w wn then (true, wn) else lambertw_halley step accept fuel wn

/-- What `lambertw` hands back to its caller after the loop: the second
component alone.  On convergence it returns `wn`; on loop exhaustion the
source executes `print "Warning: Lambert W iteration failed to
converge:", z` and then `return wn` — the warning goes to stdout and is
not part of the returned value. -/
def lambertw_result {α : Type} (step : α → α) (accept : α → α → Bool) (w0 : α) : α :=
  (lambertw_halley step accept 100 w0).2

instance {ε α : Type} [DecidableEq ε] [DecidableEq α] : DecidableEq (Except ε α) :=
  fun a b =>
  match a, b with
  | .error x, .error y =>
    match decEq x y with
    | .isTrue h => .isTrue (by rw [h])
    | .isFalse h => .isFalse (fun he => h (by cases he; rfl))
  | .ok x, .ok y =>
    match decEq x y with
    | .isTrue h => .isTrue (by rw [h])
    | .isFalse h => .isFalse (fun he => h (by cases he; rfl))
  | .error _, .ok _ => .isFalse (fun h => Except.noConfusion h)
  | .ok _, .error _ => .isFalse (fun h => Except.noConfusion h)

/-! ### Bit-length and trailing-zero lemmas -/

lemma size_eq_size_div_two {n : Nat} (h : n ≠ 0) : n.size = (n / 2).size + 1 := by
  conv_lhs => rw [← Nat.bit_decomp n]
  rw [Nat.size_bit (by rwa [Nat.bit_decomp]), Nat.div2_val]

lemma bitsAux_eq_size : ∀ fuel n, n ≤ fuel → bitsAux fuel n = n.size := by
  intro fuel
  induction fuel with
  | zero =>
    intro n hn
    have : n = 0 := Nat.le_zero.mp hn
    subst this
    simp [bitsAux]
  | succ f ih =>
    intro n hn
    by_cases h0 : n = 0
    · subst h0; simp [bitsAux]
    · have hlt : n / 2 < n := Nat.div_lt_self (Nat.pos_of_ne_zero h0) one_lt_two
      rw [show bitsAux (f + 1) n = bitsAux f (n / 2) + 1 by simp [bitsAux, h0],
        ih (n / 2) (by omega), ← size_eq_size_div_two h0]

lemma bitcount_eq_size (man : Int) : bitcount man = (man.natAbs.size : Int) := by
  unfold bitcount
  rw [bitsAux_eq_size _ _ le_rfl]

lemma bitcount_neg (man : Int) : bitcount (-man) = bitcount man := by
  simp [bitcount, Int.natAbs_neg]

lemma tzAux_spec : ∀ fuel n, n ≤ fuel → n ≠ 0 →
    2 ^ tzAux fuel n ∣ n ∧ (n / 2 ^ tzAux fuel n) % 2 = 1 := by
  intro fuel
  induction fuel with
  | zero => intro n hn h0; omega
  | succ f ih =>
    intro n hn h0
    by_cases hodd : n % 2 = 1
    · rw [show tzAux (f + 1) n = 0 by simp [tzAux, hodd]]
      simpa using hodd
    · have heven : n % 2 = 0 := by omega
      have hrec : tzAux (f + 1) n = tzAux f (n / 2) + 1 := by
        simp [tzAux, hodd, h0]
      have h2 : n / 2 ≠ 0 := by omega
      have hle : n / 2 ≤ f := by
        have : n / 2 < n := Nat.div_lt_self (Nat.pos_of_ne_zero h0) one_lt_two
        omega
      obtain ⟨hdvd, hq⟩ := ih (n / 2) hle h2
      have hndiv : 2 * (n / 2) = n := Nat.mul_div_cancel' (by omega)
      constructor
      · have h1 : 2 * 2 ^ tzAux f (n / 2) ∣ 2 * (n / 2) := mul_dvd_mul_left 2 hdvd
        rw [hndiv] at h1
        rw [hrec, pow_succ, mul_comm (2 ^ tzAux f (n / 2)) 2]
        exact h1
      · rw [hrec, pow_succ, mul_comm (2 ^ tzAux f (n / 2)) 2,
          ← Nat.div_div_eq_div_mul]
        exact hq

lemma trailing_zeros_spec (man : Int) (h : man ≠ 0) :
    2 ^ trailing_zeros man ∣ man.natAbs ∧
      (man.natAbs / 2 ^ trailing_zeros man) % 2 = 1 :=
  tzAux_spec _ _ le_rfl (by simpa [Int.natAbs_eq_zero] using h)

lemma trailing_zeros_of_odd (man : Int) (h : man % 2 = 1) : trailing_zeros man = 0 := by
  have h0 : man ≠ 0 := by intro h'; rw [h'] at h; simp at h
  by_contra htz
  have hdvd := (trailing_zeros_spec man h0).1
  have h2 : 2 ∣ man.natAbs := dvd_trans (dvd_pow_self 2 htz) hdvd
  have : Even man := Int.natAbs_even.mp (even_iff_two_dvd.mpr h2)
  rw [Int.even_iff] at this
  omega

lemma trailing_zeros_pos (man : Int) (h0 : man ≠ 0) (h : man % 2 = 0) :
    trailing_zeros man ≠ 0 := by
  intro htz
  have hq := (trailing_zeros_spec man h0).2
  rw [htz] at hq
  simp only [pow_zero, Nat.div_one] at hq
  have : Odd man := Int.natAbs_odd.mp (Nat.odd_iff.mpr hq)
  rw [Int.odd_iff] at this
  omega

/-- The odd part keeps `size − tz` bits. -/
lemma size_div_pow_tz (m t : Nat) (hd : 2 ^ t ∣ m) (hm : m / 2 ^ t ≠ 0) :
    (m / 2 ^ t).size = m.size - t ∧ t ≤ m.size - (m / 2 ^ t).size + t := by
  have hmul : m / 2 ^ t * 2 ^ t = m := Nat.div_mul_cancel hd
  have hsize : m.size = (m / 2 ^ t).size + t := by
    conv_lhs => rw [← hmul, ← Nat.shiftLeft_eq]
    exact Nat.size_shiftLeft hm t
  omega

/-! ### Rounded right-shift lemmas -/

lemma rshiftMag_eq_or (m k : Nat) (r : Rounding) (neg : Bool) :
    rshiftMag m k r neg = m / 2 ^ k ∨ rshiftMag m k r neg = m / 2 ^ k + 1 := by
  unfold rshiftMag
  split
  · right; rfl
  · left; rfl

lemma rshiftMag_bounds {m k : Nat} (r : Rounding) (neg : Bool) (hk : k < m.size) :
    2 ^ (m.size - 1 - k) ≤ rshiftMag m k r neg ∧
      rshiftMag m k r neg ≤ 2 ^ (m.size - k) := by
  have h2k : 0 < 2 ^ k := Nat.pos_pow_of_pos k (by omega)
  have hlow : 2 ^ (m.size - 1) ≤ m := Nat.lt_size.mp (by omega)
  have hhigh : m < 2 ^ m.size := Nat.lt_size_self m
  have hqlow : 2 ^ (m.size - 1 - k) ≤ m / 2 ^ k := by
    have h1 : 2 ^ (m.size - 1) / 2 ^ k ≤ m / 2 ^ k := Nat.div_le_div_right hlow
    rwa [Nat.pow_div (by omega) (by omega)] at h1
  have hqhigh : m / 2 ^ k < 2 ^ (m.size - k) := by
    rw [Nat.div_lt_iff_lt_mul h2k]
    calc m < 2 ^ m.size := hhigh
    _ = 2 ^ (m.size - k) * 2 ^ k := (Nat.pow_sub_mul_pow 2 (by omega)).symm
  rcases rshiftMag_eq_or m k r neg with h | h <;> rw [h] <;> omega

lemma rshift_natAbs (x : Int) (k : Nat) (r : Rounding) (hk : k ≠ 0) :
    (rshift x k r).natAbs = rshiftMag x.natAbs k r (decide (x < 0)) := by
  unfold rshift
  rw [if_neg hk]
  split
  · rw [Int.natAbs_neg, Int.natAbs_ofNat]
  · rw [Int.natAbs_ofNat]

lemma rshift_away_zero (k : Nat) (r : Rounding) (neg : Bool) :
    rshift_away 0 k r neg = false := by
  cases r <;> simp [rshift_away]

lemma rshiftMag_zero (k : Nat) (r : Rounding) (neg : Bool) :
    rshiftMag 0 k r neg = 0 := by
  unfold rshiftMag
  rw [rshift_away_zero]
  simp

lemma rshift_sign (x : Int) (k : Nat) (r : Rounding) (hk : k ≠ 0)
    (hq : rshiftMag x.natAbs k r (decide (x < 0)) ≠ 0) :
    (0 < x ↔ 0 < rshift x k r) ∧ (x < 0 ↔ rshift x k r < 0) := by
  have hx0 : x ≠ 0 := by
    intro h
    apply hq
    rw [h]
    exact rshiftMag_zero k r _
  have hqpos : (0 : Int) < (rshiftMag x.natAbs k r (decide (x < 0)) : Int) := by
    have := Int.ofNat_nonneg (rshiftMag x.natAbs k r (decide (x < 0)))
    have hne : (rshiftMag x.natAbs k r (decide (x < 0)) : Int) ≠ 0 := by simpa using hq
    omega
  unfold rshift
  rw [if_neg hk]
  by_cases hx : x < 0
  · rw [if_pos hx]
    constructor
    · constructor
      · intro h; omega
      · intro h; omega
    · constructor
      · intro _; omega
      · intro _; exact hx
  · rw [if_neg hx]
    constructor
    · constructor
      · intro _; exact hqpos
      · intro _; omega
    · constructor
      · intro h; omega
      · intro h; omega

/-! ### Characterization of the phases of `normalize` -/

lemma normalize_shift_spec (man exp prec : Int) (r : Rounding)
    (hman : man ≠ 0) (hp : 1 ≤ prec) :
    (normalize_shift man exp prec r).1 ≠ 0 ∧
    (0 < man ↔ 0 < (normalize_shift man exp prec r).1) ∧
    (normalize_shift man exp prec r).1.natAbs.size ≤ prec.toNat + 1 ∧
    (3 ≤ prec →
      (normalize_shift man exp prec r).2.2 =
        ((normalize_shift man exp prec r).1.natAbs.size : Int) ∧
      ((normalize_shift man exp prec r).1.natAbs.size = prec.toNat + 1 →
        (normalize_shift man exp prec r).1 % 2 = 0)) := by
  have hm0 : man.natAbs ≠ 0 := by simpa [Int.natAbs_eq_zero] using hman
  have hP1 : 1 ≤ prec.toNat := by omega
  have hPprec : (prec.toNat : Int) = prec := Int.toNat_of_nonneg (by omega)
  simp only [normalize_shift, bitcount_eq_size]
  by_cases hbc : (man.natAbs.size : Int) > prec
  · rw [if_pos hbc]
    have hszP : prec.toNat < man.natAbs.size := by omega
    have hk : ((man.natAbs.size : Int) - prec).toNat = man.natAbs.size - prec.toNat := by
      omega
    set k := man.natAbs.size - prec.toNat with hkdef
    have hk0 : k ≠ 0 := by omega
    have hklt : k < man.natAbs.size := by omega
    rw [hk]
    have hNA : (rshift man k r).natAbs = rshiftMag man.natAbs k r (decide (man < 0)) :=
      rshift_natAbs man k r hk0
    have hbounds := rshiftMag_bounds (m := man.natAbs) (k := k) r (decide (man < 0)) hklt
    have hszk : man.natAbs.size - k = prec.toNat := by omega
    have hszk1 : man.natAbs.size - 1 - k = prec.toNat - 1 := by omega
    rw [hszk, hszk1] at hbounds
    have hpow1 : 0 < 2 ^ (prec.toNat - 1) := Nat.pos_pow_of_pos _ (by omega)
    have hq0 : rshiftMag man.natAbs k r (decide (man < 0)) ≠ 0 := by omega
    have hsign := rshift_sign man k r hk0 hq0
    have hne : (rshift man k r) ≠ 0 := by
      intro h
      apply hq0
      rw [← hNA, h]
      rfl
    refine ⟨hne, hsign.1, ?_, ?_⟩
    · rw [hNA]
      have : rshiftMag man.natAbs k r (decide (man < 0)) < 2 ^ (prec.toNat + 1) := by
        have h1 : (2 : Nat) ^ prec.toNat < 2 ^ (prec.toNat + 1) :=
          Nat.pow_lt_pow_right (by omega) (by omega)
        omega
      have := Nat.size_le.mpr this
      omega
    · intro hp3
      have hP3 : 3 ≤ prec.toNat := by omega
      rcases eq_or_lt_of_le hbounds.2 with hq | hq
      · -- the rounded mantissa carried to exactly 2 ^ prec
        have hsz' : (rshift man k r).natAbs.size = prec.toNat + 1 := by
          rw [hNA, hq, Nat.size_pow]
        have hdvd8 : (8 : Int) ∣ rshift man k r := by
          rw [← Int.natAbs_dvd_natAbs]
          show (8 : Int).natAbs ∣ _
          rw [hNA, hq]
          have : (8 : Int).natAbs = 2 ^ 3 := rfl
          rw [this]
          exact pow_dvd_pow 2 hP3
        have hmod8 : rshift man k r % 8 = 0 := Int.emod_eq_zero_of_dvd hdvd8
        constructor
        · rw [if_neg (by simpa using hmod8)]
        · intro _
          have hdvd2 : (2 : Int) ∣ rshift man k r := dvd_trans (by norm_num) hdvd8
          exact Int.emod_eq_zero_of_dvd hdvd2
      · -- no carry past the precision: exactly `prec` bits remain
        have hsz' : (rshift man k r).natAbs.size = prec.toNat := by
          rw [hNA]
          have hup : (rshiftMag man.natAbs k r (decide (man < 0))).size ≤ prec.toNat :=
            Nat.size_le.mpr hq
          have hlo : prec.toNat - 1 < (rshiftMag man.natAbs k r (decide (man < 0))).size :=
            Nat.lt_size.mpr hbounds.1
          omega
        constructor
        · rw [hsz']
          split
          · exact hPprec.symm
          · rfl
        · intro habs
          dsimp only at habs
          omega
  · rw [if_neg hbc]
    refine ⟨hman, Iff.rfl, by dsimp only; omega,
      fun _ => ⟨rfl, fun habs => by dsimp only at habs; omega⟩⟩

lemma fdiv_pow_exact (x : Int) (t : Nat) (h : ((2 : Int) ^ t) ∣ x) :
    (Int.fdiv x (2 ^ t)).natAbs = x.natAbs / 2 ^ t ∧
    (0 < x ↔ 0 < Int.fdiv x (2 ^ t)) ∧ (x ≠ 0 → Int.fdiv x (2 ^ t) ≠ 0) := by
  obtain ⟨w, hw⟩ := h
  subst hw
  have h2 : ((2 : Int) ^ t) ≠ 0 := by positivity
  have h2pos : (0 : Int) < 2 ^ t := by positivity
  rw [Int.mul_fdiv_cancel_left _ h2]
  refine ⟨?_, ?_, ?_⟩
  · rw [Int.natAbs_mul]
    have hNA : ((2 : Int) ^ t).natAbs = 2 ^ t := by
      rw [Int.natAbs_pow]
      rfl
    rw [hNA, Nat.mul_div_cancel_left _ (Nat.pos_pow_of_pos _ (by omega))]
  · exact mul_pos_iff_of_pos_left h2pos
  · intro hx h0
    exact hx (by rw [h0, mul_zero])

lemma natAbs_pow_two (t : Nat) : ((2 : Int) ^ t).natAbs = 2 ^ t := by
  rw [Int.natAbs_pow]
  rfl

lemma normalize_strip_eq (x : MPF) :
    normalize_strip x = (Int.fdiv x.1 (2 ^ trailing_zeros x.1),
      x.2.1 + (trailing_zeros x.1 : Int), x.2.2 - (trailing_zeros x.1 : Int)) := by
  obtain ⟨m, e, b⟩ := x
  unfold normalize_strip
  by_cases he : m % 2 = 0
  · rw [if_pos he]
    by_cases h0 : m = 0
    · subst h0
      have htz : trailing_zeros (0 : Int) = 0 := rfl
      rw [htz]
      simp [Int.fdiv_one]
    · have htz : trailing_zeros m ≠ 0 := trailing_zeros_pos m h0 he
      rw [if_pos htz]
  · rw [if_neg he]
    have hodd : m % 2 = 1 := by omega
    have htz : trailing_zeros m = 0 := trailing_zeros_of_odd m hodd
    rw [htz]
    simp [Int.fdiv_one]

lemma normalize_zero (exp prec : Int) (r : Rounding) :
    normalize 0 exp prec r = (0, 0, 0) := by
  simp [normalize]

/-- Everything `normalize` guarantees on a nonzero mantissa: the result
is nonzero with the sign of the input, and — when the precision is at
least 3 — canonically normalized at that precision. -/
lemma normalize_core (man exp prec : Int) (r : Rounding)
    (hman : man ≠ 0) (hp : 1 ≤ prec) :
    (normalize man exp prec r).1 ≠ 0 ∧
    (0 < man ↔ 0 < (normalize man exp prec r).1) ∧
    (3 ≤ prec → NormalizedAt prec (normalize man exp prec r)) := by
  obtain ⟨hy0, hysign, hysize, hy3⟩ := normalize_shift_spec man exp prec r hman hp
  set y := normalize_shift man exp prec r with hy
  have hstrip := normalize_strip_eq y
  set t := trailing_zeros y.1 with ht
  obtain ⟨hdvd, hoddq⟩ := trailing_zeros_spec y.1 hy0
  have hdvdInt : ((2 : Int) ^ t) ∣ y.1 := by
    rw [← Int.natAbs_dvd_natAbs, natAbs_pow_two]
    exact hdvd
  obtain ⟨hzNA, hzsign, hzne⟩ := fdiv_pow_exact y.1 t hdvdInt
  have hz0 : Int.fdiv y.1 (2 ^ t) ≠ 0 := hzne hy0
  have hzodd : Int.fdiv y.1 (2 ^ t) % 2 = 1 := by
    rw [← Int.odd_iff, ← Int.natAbs_odd, hzNA]
    exact Nat.odd_iff.mpr hoddq
  have hne2 : (normalize_strip y).1 ≠ 0 := by
    rw [hstrip]
    exact hz0
  have hnorm : normalize man exp prec r = normalize_strip y := by
    simp only [normalize, ← hy]
    rw [if_neg hman, if_neg hne2]
  have hqNA : (Int.fdiv y.1 (2 ^ t)).natAbs ≠ 0 := by
    simpa [Int.natAbs_eq_zero] using hz0
  have hsz := size_div_pow_tz y.1.natAbs t hdvd (by rwa [← hzNA])
  rw [hnorm, hstrip]
  refine ⟨hz0, hysign.trans hzsign, fun hp3 => ?_⟩
  obtain ⟨hbcy, heven⟩ := hy3 hp3
  have hPprec : (prec.toNat : Int) = prec := Int.toNat_of_nonneg (by omega)
  have hzsize : (Int.fdiv y.1 (2 ^ t)).natAbs.size = y.1.natAbs.size - t := by
    rw [hzNA]
    exact hsz.1
  have htle : t + 1 ≤ y.1.natAbs.size := by
    have hqpos : 0 < (Int.fdiv y.1 (2 ^ t)).natAbs.size := Nat.size_pos.mpr (by omega)
    omega
  have hszle : y.1.natAbs.size - t ≤ prec.toNat := by
    by_cases hcase : y.1.natAbs.size = prec.toNat + 1
    · have htpos : t ≠ 0 := trailing_zeros_pos y.1 hy0 (heven hcase)
      omega
    · omega
  constructor
  · constructor
    · intro habs
      exact absurd habs hz0
    · intro _
      refine ⟨hzodd, ?_⟩
      rw [bitcount_eq_size, hzsize, hbcy]
      dsimp only
      omega
  · intro _
    dsimp only
    omega

/-- Re-normalizing a canonical value at a precision that accommodates its
bitcount returns it unchanged. -/
lemma normalize_fixpoint (x : MPF) (prec : Int) (r : Rounding)
    (h : NormalizedAt prec x) :
    normalize x.1 x.2.1 prec r = x := by
  by_cases h0 : x.1 = 0
  · rw [h.1.1 h0]
    exact normalize_zero 0 prec r
  · obtain ⟨hodd, hbc⟩ := h.1.2 h0
    have hle := h.2 h0
    have hshift : normalize_shift x.1 x.2.1 prec r = (x.1, x.2.1, bitcount x.1) := by
      simp only [normalize_shift]
      rw [if_neg]
      omega
    have hstrip : normalize_strip (x.1, x.2.1, bitcount x.1) = (x.1, x.2.1, bitcount x.1) := by
      simp only [normalize_strip]
      rw [if_neg (show ¬(x.1 % 2 = 0) by omega)]
    simp only [normalize, hshift, hstrip]
    rw [if_neg h0, if_neg (show ¬((x.1, x.2.1, bitcount x.1).1 = 0) from h0)]
    rw [← hbc]

/-! ### Value semantics over the rationals -/

lemma two_zpow_pos (e : Int) : (0 : ℚ) < (2 : ℚ) ^ e :=
  zpow_pos (by norm_num) e

lemma fval_pos_iff (x : MPF) : 0 < fval x ↔ 0 < x.1 := by
  unfold fval
  rw [mul_comm, mul_pos_iff_of_pos_left (two_zpow_pos x.2.1)]
  exact Int.cast_pos

lemma fval_eq_zero_iff (x : MPF) : fval x = 0 ↔ x.1 = 0 := by
  unfold fval
  rw [mul_eq_zero]
  constructor
  · rintro (h | h)
    · exact_mod_cast h
    · exact absurd h (two_zpow_pos x.2.1).ne'
  · intro h
    exact Or.inl (by exact_mod_cast h)

lemma fval_lt_zero_iff (x : MPF) : fval x < 0 ↔ x.1 < 0 := by
  unfold fval
  rw [mul_neg_iff]
  constructor
  · rintro (⟨_, h2⟩ | ⟨h1, _⟩)
    · exact absurd h2 (two_zpow_pos x.2.1).asymm
    · exact_mod_cast h1
  · intro h
    exact Or.inr ⟨by exact_mod_cast h, two_zpow_pos x.2.1⟩

lemma fval_fneg_noround (t : MPF) : fval (fneg_noround t) = -fval t := by
  unfold fval fneg_noround
  push_cast
  ring

lemma BCok_fneg_noround (t : MPF) (h : BCok t) : BCok (fneg_noround t) := by
  intro h0
  unfold fneg_noround at h0 ⊢
  dsimp only at h0 ⊢
  rw [bitcount_neg]
  exact h (by simpa using h0)

/-- Magnitude bounds from the bit-length: the most significant bit of
`|man * 2^exp|` sits at position `size + exp`. -/
lemma abs_fval_bounds (x : MPF) (hx : x.1 ≠ 0) :
    (2 : ℚ) ^ ((x.1.natAbs.size : Int) + x.2.1 - 1) ≤ |fval x| ∧
      |fval x| < (2 : ℚ) ^ ((x.1.natAbs.size : Int) + x.2.1) := by
  have h2 : (2 : ℚ) ≠ 0 := by norm_num
  have habs : |fval x| = (x.1.natAbs : ℚ) * (2 : ℚ) ^ x.2.1 := by
    unfold fval
    rw [abs_mul, abs_of_pos (two_zpow_pos _)]
    congr 1
    rw [Int.cast_natAbs, Int.cast_abs]
  have hNA0 : x.1.natAbs ≠ 0 := by simpa [Int.natAbs_eq_zero] using hx
  have hsz1 : 1 ≤ x.1.natAbs.size := Nat.size_pos.mpr (Nat.pos_of_ne_zero hNA0)
  have hlowN : 2 ^ (x.1.natAbs.size - 1) ≤ x.1.natAbs := Nat.lt_size.mp (by omega)
  have hhighN : x.1.natAbs < 2 ^ x.1.natAbs.size := Nat.lt_size_self _
  constructor
  · rw [habs, show (x.1.natAbs.size : Int) + x.2.1 - 1 = ((x.1.natAbs.size : Int) - 1) + x.2.1 by ring,
      zpow_add₀ h2]
    refine mul_le_mul_of_nonneg_right ?_ (two_zpow_pos x.2.1).le
    have hc : ((x.1.natAbs.size : Int) - 1) = ((x.1.natAbs.size - 1 : Nat) : Int) := by omega
    rw [hc, zpow_natCast]
    exact_mod_cast hlowN
  · rw [habs, zpow_add₀ h2]
    refine mul_lt_mul_of_pos_right ?_ (two_zpow_pos x.2.1)
    rw [zpow_natCast]
    exact_mod_cast hhighN

lemma abs_fval_lt_of_msb_lt {s t : MPF} (hs : s.1 ≠ 0) (ht : t.1 ≠ 0)
    (h : (s.1.natAbs.size : Int) + s.2.1 < (t.1.natAbs.size : Int) + t.2.1) :
    |fval s| < |fval t| := by
  calc |fval s| < (2 : ℚ) ^ ((s.1.natAbs.size : Int) + s.2.1) := (abs_fval_bounds s hs).2
  _ ≤ (2 : ℚ) ^ ((t.1.natAbs.size : Int) + t.2.1 - 1) :=
      zpow_le_zpow_right₀ (by norm_num) (by omega)
  _ ≤ |fval t| := (abs_fval_bounds t ht).1

/-- When `|b| < |a|` the sum `a + b` is nonzero and carries the sign of
`a`. -/
lemma add_sign_dominant {a b : ℚ} (h : |b| < |a|) :
    (a + b ≠ 0) ∧ (0 < a + b ↔ 0 < a) := by
  have h1 : b < |a| := lt_of_le_of_lt (le_abs_self b) h
  have h2 : -|a| < b := by linarith [neg_abs_le b]
  rcases lt_trichotomy a 0 with ha | ha | ha
  · have haa : |a| = -a := abs_of_neg ha
    rw [haa] at h1 h2
    constructor
    · intro hz
      linarith
    · constructor
      · intro hpos
        linarith
      · intro hpos
        linarith
  · subst ha
    simp only [abs_zero] at h
    exact absurd h (not_lt.mpr (abs_nonneg b))
  · have haa : |a| = a := abs_of_pos ha
    rw [haa] at h1 h2
    constructor
    · intro hz
      linarith
    · exact ⟨fun _ => ha, fun _ => by linarith⟩

lemma sign_iff_neg {m : Int} {a : ℚ} (h0 : m = 0 ↔ a = 0) (hp : 0 < m ↔ 0 < a) :
    m < 0 ↔ a < 0 := by
  constructor
  · intro h
    rcases lt_trichotomy a 0 with h' | h' | h'
    · exact h'
    · exact absurd (h0.mpr h') (by omega)
    · exact absurd (hp.mpr h') (by omega)
  · intro h
    rcases lt_trichotomy m 0 with h' | h' | h'
    · exact h'
    · exact absurd (h0.mp h') h.ne
    · exact absurd (hp.mp h') (by linarith)

lemma ratCmp_eq_pycmp_of (a b : ℚ) (u v : Int)
    (h1 : a < b ↔ u < v) (h2 : b < a ↔ v < u) : ratCmp a b = pycmp u v := by
  unfold ratCmp pycmp
  rcases lt_trichotomy u v with h | h | h
  · rw [if_pos (h1.mpr h), if_pos h]
  · rw [if_neg (fun hc => absurd (h1.mp hc) (by omega)),
      if_neg (fun hc => absurd (h2.mp hc) (by omega)),
      if_neg (show ¬u < v by omega), if_neg (show ¬v < u by omega)]
  · rw [if_neg (fun hc => absurd (h1.mp hc) (by omega)), if_pos (h2.mpr h),
      if_neg (show ¬u < v by omega), if_pos h]

/-! ### Sign correctness of `fadd` -/

lemma normalize_sign_iff (man exp p : Int) (r : Rounding) (hp : 1 ≤ p) :
    ((normalize man exp p r).1 = 0 ↔ man = 0) ∧
      (0 < (normalize man exp p r).1 ↔ 0 < man) := by
  by_cases h : man = 0
  · subst h
    rw [normalize_zero]
    simp
  · obtain ⟨h1, h2, _⟩ := normalize_core man exp p r h hp
    exact ⟨⟨fun hz => absurd hz h1, fun hz => absurd hz h⟩, h2.symm⟩

lemma fadd_core_sign (s t : MPF) (p : Int) (r : Rounding)
    (hbs : BCok s) (hbt : BCok t) (hp : 1 ≤ p) (hexp : t.2.1 ≤ s.2.1) :
    ((fadd_core s t p r).1 = 0 ↔ fval s + fval t = 0) ∧
      (0 < (fadd_core s t p r).1 ↔ 0 < fval s + fval t) := by
  obtain ⟨sm, se, sb⟩ := s
  obtain ⟨tm, te, tb⟩ := t
  unfold BCok at hbs hbt
  dsimp only at hbs hbt hexp ⊢
  simp only [fadd_core]
  by_cases htm : tm = 0
  · rw [if_pos htm]
    have hft : fval (tm, te, tb) = 0 := by simp [fval, htm]
    rw [hft, add_zero]
    have h := normalize_sign_iff sm se p r hp
    exact ⟨h.1.trans (fval_eq_zero_iff (sm, se, sb)).symm,
      h.2.trans (fval_pos_iff (sm, se, sb)).symm⟩
  · by_cases hsm : sm = 0
    · rw [if_neg htm, if_pos hsm]
      have hfs : fval (sm, se, sb) = 0 := by simp [fval, hsm]
      rw [hfs, zero_add]
      have h := normalize_sign_iff tm te p r hp
      exact ⟨h.1.trans (fval_eq_zero_iff (tm, te, tb)).symm,
        h.2.trans (fval_pos_iff (tm, te, tb)).symm⟩
    · rw [if_neg htm, if_neg hsm]
      have hsb : sb = bitcount sm := hbs hsm
      have htb : tb = bitcount tm := hbt htm
      rw [bitcount_eq_size] at hsb htb
      by_cases hcond : se - te > 10 ∧ (sb + se) - (tb + te) > p + 5
      · rw [if_pos hcond]
        have hdom : |fval (tm, te, tb)| < |fval (sm, se, sb)| := by
          apply abs_fval_lt_of_msb_lt htm hsm
          dsimp only
          omega
        have hadd := add_sign_dominant hdom
        by_cases hr : r.code > 4
        · rw [if_pos hr]
          have h := normalize_sign_iff sm se p r hp
          constructor
          · constructor
            · intro h0
              exact absurd (h.1.mp h0) hsm
            · intro h0
              exact absurd h0 hadd.1
          · exact h.2.trans ((fval_pos_iff (sm, se, sb)).symm.trans hadd.2.symm)
        · rw [if_neg hr]
          set off := min ((sb + se) - (tb + te) + 3) (p + 3) with hoff
          have hoffeq : off = p + 3 := by
            rw [hoff]
            omega
          have hk1 : 1 ≤ off.toNat := by omega
          have hb2 : 2 ≤ (2 : Int) ^ off.toNat := by
            calc (2 : Int) = 2 ^ 1 := (pow_one 2).symm
            _ ≤ 2 ^ off.toNat := pow_le_pow_right₀ (by norm_num) hk1
          set M := sm * 2 ^ off.toNat with hM
          have hMbig : (0 < sm → 2 ≤ M) ∧ (sm < 0 → M ≤ -2) := by
            constructor
            · intro h1
              have hle : 1 * 2 ^ off.toNat ≤ sm * 2 ^ off.toNat :=
                mul_le_mul_of_nonneg_right (by omega) (by positivity)
              rw [one_mul] at hle
              omega
            · intro h1
              have hle : sm * 2 ^ off.toNat ≤ (-1) * 2 ^ off.toNat :=
                mul_le_mul_of_nonneg_right (by omega) (by positivity)
              rw [neg_one_mul] at hle
              omega
          set M2 := if tm > 0 then M + 1 else M - 1 with hM2
          have hsplit : M2 = M + 1 ∨ M2 = M - 1 := by
            rw [hM2]
            split
            · exact Or.inl rfl
            · exact Or.inr rfl
          have hM2sign : (¬M2 = 0) ∧ (0 < M2 ↔ 0 < sm) := by
            rcases lt_trichotomy sm 0 with h1 | h1 | h1
            · have h2 := hMbig.2 h1
              exact ⟨by omega, by constructor <;> intro <;> omega⟩
            · exact absurd h1 hsm
            · have h2 := hMbig.1 h1
              exact ⟨by omega, by constructor <;> intro <;> omega⟩
          have h := normalize_sign_iff M2 (se - off) p r hp
          constructor
          · constructor
            · intro h0
              exact absurd (h.1.mp h0) hM2sign.1
            · intro h0
              exact absurd h0 hadd.1
          · exact h.2.trans (hM2sign.2.trans
              ((fval_pos_iff (sm, se, sb)).symm.trans hadd.2.symm))
      · rw [if_neg hcond]
        have hsplit2 : (2 : ℚ) ^ se = (2 : ℚ) ^ te * (2 : ℚ) ^ ((se - te).toNat : Nat) := by
          rw [← zpow_natCast (2 : ℚ) (se - te).toNat,
            ← zpow_add₀ (by norm_num : (2 : ℚ) ≠ 0)]
          congr 1
          omega
        have hsum : fval (sm, se, sb) + fval (tm, te, tb) =
            fval (tm + sm * 2 ^ (se - te).toNat, te, 0) := by
          unfold fval
          dsimp only
          rw [hsplit2]
          push_cast
          ring
        rw [hsum]
        have h := normalize_sign_iff (tm + sm * 2 ^ (se - te).toNat) te p r hp
        exact ⟨h.1.trans (fval_eq_zero_iff (tm + sm * 2 ^ (se - te).toNat, te, 0)).symm,
          h.2.trans (fval_pos_iff (tm + sm * 2 ^ (se - te).toNat, te, 0)).symm⟩

lemma fadd_sign (s t : MPF) (p : Int) (r : Rounding)
    (hbs : BCok s) (hbt : BCok t) (hp : 1 ≤ p) :
    ((fadd s t p r).1 = 0 ↔ fval s + fval t = 0) ∧
      (0 < (fadd s t p r).1 ↔ 0 < fval s + fval t) := by
  unfold fadd
  by_cases h : t.2.1 > s.2.1
  · rw [if_pos h]
    have hc : fval s + fval t = fval t + fval s := add_comm _ _
    rw [hc]
    exact fadd_core_sign t s p r hbt hbs hp (by omega)
  · rw [if_neg h]
    exact fadd_core_sign s t p r hbs hbt hp (by omega)

/-! ### Correctness of `fcmp` -/

lemma fcmp_fallback (s t : MPF) (hbs : BCok s) (hbt : BCok t) :
    pycmp (fsub s t 5 .floor).1 0 = ratCmp (fval s) (fval t) := by
  have hb := fadd_sign s (fneg_noround t) 5 .floor hbs (BCok_fneg_noround t hbt)
    (by norm_num)
  rw [fval_fneg_noround] at hb
  have hfs : fsub s t 5 .floor = fadd s (fneg_noround t) 5 .floor := rfl
  rw [hfs]
  have hneg := sign_iff_neg hb.1 hb.2
  refine (ratCmp_eq_pycmp_of _ _ _ _ ?_ ?_).symm
  · constructor
    · intro h
      exact hneg.mpr (by linarith)
    · intro h
      have := hneg.mp h
      linarith
  · constructor
    · intro h
      exact hb.2.mpr (by linarith)
    · intro h
      have := hb.2.mp h
      linarith

lemma fcmp_eq_ratCmp (s t : MPF) (hs : IsNormal s) (ht : IsNormal t) :
    fcmp s t = ratCmp (fval s) (fval t) := by
  have hbs : BCok s := fun h => (hs.2 h).2
  have hbt : BCok t := fun h => (ht.2 h).2
  obtain ⟨sm, se, sb⟩ := s
  obtain ⟨tm, te, tb⟩ := t
  simp only [fcmp]
  by_cases htm : tm = 0
  · rw [if_pos htm]
    have hft : fval (tm, te, tb) = 0 := by simp [fval, htm]
    rw [hft]
    exact (ratCmp_eq_pycmp_of _ _ _ _ (fval_lt_zero_iff (sm, se, sb))
      (fval_pos_iff (sm, se, sb))).symm
  · by_cases hsm : sm = 0
    · rw [if_neg htm, if_pos hsm]
      have hfs : fval (sm, se, sb) = 0 := by simp [fval, hsm]
      rw [hfs]
      exact (ratCmp_eq_pycmp_of _ _ _ _ (fval_pos_iff (tm, te, tb))
        (fval_lt_zero_iff (tm, te, tb))).symm
    · by_cases hpn : sm > 0 ∧ tm < 0
      · rw [if_neg htm, if_neg hsm, if_pos hpn]
        have h1 : 0 < fval (sm, se, sb) := (fval_pos_iff _).mpr hpn.1
        have h2 : fval (tm, te, tb) < 0 := (fval_lt_zero_iff _).mpr hpn.2
        unfold ratCmp
        rw [if_neg (by linarith), if_pos (by linarith)]
      · by_cases hnp : sm < 0 ∧ tm > 0
        · rw [if_neg htm, if_neg hsm, if_neg hpn, if_pos hnp]
          have h1 : fval (sm, se, sb) < 0 := (fval_lt_zero_iff _).mpr hnp.1
          have h2 : 0 < fval (tm, te, tb) := (fval_pos_iff _).mpr hnp.2
          unfold ratCmp
          rw [if_pos (by linarith)]
        · by_cases hee : se = te
          · rw [if_neg htm, if_neg hsm, if_neg hpn, if_neg hnp, if_pos hee]
            subst hee
            refine (ratCmp_eq_pycmp_of _ _ _ _ ?_ ?_).symm
            · unfold fval
              dsimp only
              rw [mul_lt_mul_right (two_zpow_pos se)]
              exact Int.cast_lt
            · unfold fval
              dsimp only
              rw [mul_lt_mul_right (two_zpow_pos se)]
              exact Int.cast_lt
          · rw [if_neg htm, if_neg hsm, if_neg hpn, if_neg hnp, if_neg hee]
            have hsb := hbs hsm
            have htb2 := hbt htm
            rw [bitcount_eq_size] at hsb htb2
            dsimp only at hsb htb2
            by_cases hspos : sm > 0
            · have htpos : tm > 0 := by
                rcases lt_trichotomy tm 0 with h | h | h
                · exact absurd ⟨hspos, h⟩ hpn
                · exact absurd h htm
                · exact h
              rw [if_pos hspos]
              rcases lt_trichotomy (sb + se) (tb + te) with hab | hab | hab
              · rw [if_pos hab]
                have habs : |fval (sm, se, sb)| < |fval (tm, te, tb)| :=
                  abs_fval_lt_of_msb_lt hsm htm (by dsimp only; omega)
                rw [abs_of_pos ((fval_pos_iff (sm, se, sb)).mpr hspos),
                  abs_of_pos ((fval_pos_iff (tm, te, tb)).mpr htpos)] at habs
                unfold ratCmp
                rw [if_pos habs]
              · rw [if_neg (by omega), if_neg (by omega)]
                exact fcmp_fallback (sm, se, sb) (tm, te, tb) hbs hbt
              · rw [if_neg (by omega), if_pos (by omega)]
                have habs : |fval (tm, te, tb)| < |fval (sm, se, sb)| :=
                  abs_fval_lt_of_msb_lt htm hsm (by dsimp only; omega)
                rw [abs_of_pos ((fval_pos_iff (sm, se, sb)).mpr hspos),
                  abs_of_pos ((fval_pos_iff (tm, te, tb)).mpr htpos)] at habs
                unfold ratCmp
                rw [if_neg (by linarith), if_pos habs]
            · have hsneg : sm < 0 := by omega
              have htneg : tm < 0 := by
                rcases lt_trichotomy tm 0 with h | h | h
                · exact h
                · exact absurd h htm
                · exact absurd ⟨hsneg, h⟩ hnp
              rw [if_neg hspos]
              rcases lt_trichotomy (sb + se) (tb + te) with hab | hab | hab
              · rw [if_pos hab]
                have habs : |fval (sm, se, sb)| < |fval (tm, te, tb)| :=
                  abs_fval_lt_of_msb_lt hsm htm (by dsimp only; omega)
                rw [abs_of_neg ((fval_lt_zero_iff (sm, se, sb)).mpr hsneg),
                  abs_of_neg ((fval_lt_zero_iff (tm, te, tb)).mpr htneg)] at habs
                unfold ratCmp
                rw [if_neg (by linarith), if_pos (by linarith)]
              · rw [if_neg (by omega), if_neg (by omega)]
                exact fcmp_fallback (sm, se, sb) (tm, te, tb) hbs hbt
              · rw [if_neg (by omega), if_neg (by omega)]
                exact fcmp_fallback (sm, se, sb) (tm, te, tb) hbs hbt

/-! ### Commutativity of `fadd` and `fmul` -/

lemma fmul_comm_all (s t : MPF) (p : Int) (r : Rounding) :
    fmul s t p r = fmul t s p r := by
  unfold fmul
  rw [mul_comm, add_comm]

lemma fadd_core_comm_eq (s t : MPF) (p : Int) (r : Rounding) (h : s.2.1 = t.2.1) :
    fadd_core s t p r = fadd_core t s p r := by
  obtain ⟨sm, se, sb⟩ := s
  obtain ⟨tm, te, tb⟩ := t
  dsimp only at h
  subst h
  simp only [fadd_core]
  by_cases htm : tm = 0
  · by_cases hsm : sm = 0
    · simp only [htm, hsm, if_pos]
    · rw [if_pos htm, if_neg hsm, if_pos htm]
  · by_cases hsm : sm = 0
    · rw [if_neg htm, if_pos hsm, if_pos hsm]
    · rw [if_neg htm, if_neg hsm, if_neg hsm, if_neg htm,
        if_neg (show ¬(se - se > 10 ∧ (sb + se) - (tb + se) > p + 5) by omega),
        if_neg (show ¬(se - se > 10 ∧ (tb + se) - (sb + se) > p + 5) by omega)]
      congr 1
      simp only [sub_self, Int.toNat_zero, pow_zero, mul_one]
      omega

lemma fadd_comm_all (s t : MPF) (p : Int) (r : Rounding) :
    fadd s t p r = fadd t s p r := by
  unfold fadd
  rcases lt_trichotomy s.2.1 t.2.1 with h | h | h
  · rw [if_pos h, if_neg (by omega)]
  · rw [if_neg (by omega), if_neg (by omega)]
    exact fadd_core_comm_eq s t p r h
  · rw [if_neg (by omega), if_pos h]

/-! ### Claims -/

/-- C3: for every pair of normalized FloatValues, `fcmp` returns -1
exactly when the represented real number of `s` is smaller than that of
`t`, 0 exactly when they are equal, and 1 exactly when it is larger —
covering the zero/sign short-circuits, the equal-exponent mantissa
comparison, the bitcount-plus-exponent magnitude estimate for positive
and for negative operands (where the duplicated `a < b` test makes the
magnitude-smaller case fall through to the subtraction fallback, which
is itself sign-exact), and the low-precision subtraction fallback. -/
theorem fcmp_correct (s t : MPF) (hs : IsNormal s) (ht : IsNormal t) :
    (fcmp s t = -1 ↔ fval s < fval t) ∧
    (fcmp s t = 0 ↔ fval s = fval t) ∧
    (fcmp s t = 1 ↔ fval t < fval s) := by
  rw [fcmp_eq_ratCmp s t hs ht]
  unfold ratCmp
  rcases lt_trichotomy (fval s) (fval t) with h | h | h
  · rw [if_pos h]
    exact ⟨iff_of_true rfl h, iff_of_false (by norm_num) (ne_of_lt h),
      iff_of_false (by norm_num) (lt_asymm h)⟩
  · rw [if_neg (by rw [h]; exact lt_irrefl _), if_neg (by rw [h]; exact lt_irrefl _)]
    exact ⟨iff_of_false (by norm_num) (by rw [h]; exact lt_irrefl _),
      iff_of_true rfl h,
      iff_of_false (by norm_num) (by rw [h]; exact lt_irrefl _)⟩
  · rw [if_neg (lt_asymm h), if_pos h]
    exact ⟨iff_of_false (by norm_num) (lt_asymm h),
      iff_of_false (by norm_num) (ne_of_gt h), iff_of_true rfl h⟩

/-- C3 witness: the theorem applied at `s = (1, 0, 1)` (the number 1)
and `t = (3, -1, 2)` (the number 1.5). -/
theorem fcmp_correct_witness :
    (fcmp (1, 0, 1) (3, -1, 2) = -1 ↔ fval (1, 0, 1) < fval (3, -1, 2)) ∧
    (fcmp (1, 0, 1) (3, -1, 2) = 0 ↔ fval (1, 0, 1) = fval (3, -1, 2)) ∧
    (fcmp (1, 0, 1) (3, -1, 2) = 1 ↔ fval (3, -1, 2) < fval (1, 0, 1)) :=
  fcmp_correct (1, 0, 1) (3, -1, 2) (by decide) (by decide)

/-- C4: for every pair of normalized FloatValues, every precision ≥ 1
and every rounding mode, `fadd` and `fmul` are commutative as functions
on canonical triples (indeed they are commutative for all inputs: the
initial exponent swap of `fadd` aligns the two call orders, and the
general path is symmetric when the exponents coincide). -/
theorem fadd_fmul_comm (s t : MPF) (prec : Int) (r : Rounding)
    (_hs : IsNormal s) (_ht : IsNormal t) (_hp : 1 ≤ prec) :
    fadd s t prec r = fadd t s prec r ∧ fmul s t prec r = fmul t s prec r :=
  ⟨fadd_comm_all s t prec r, fmul_comm_all s t prec r⟩

/-- C4 witness: the theorem applied at `s = (1, 0, 1)`, `t = (3, -1, 2)`,
precision 53, HalfEven. -/
theorem fadd_fmul_comm_witness :
    fadd (1, 0, 1) (3, -1, 2) 53 .half_even = fadd (3, -1, 2) (1, 0, 1) 53 .half_even ∧
    fmul (1, 0, 1) (3, -1, 2) 53 .half_even = fmul (3, -1, 2) (1, 0, 1) 53 .half_even :=
  fadd_fmul_comm (1, 0, 1) (3, -1, 2) 53 .half_even (by decide) (by decide) (by decide)


/-- C1 (amended: precision ≥ 3): for every mantissa, exponent, rounding
mode and every precision ≥ 3, the triple returned by `normalize`
satisfies the FloatValue invariants — a zero result is exactly
`(0, 0, 0)`, and a nonzero result has an odd mantissa, a bitcount field
equal to the exact bit-length of the absolute mantissa, and a bitcount
not exceeding the precision — and applying `normalize` again to its own
output at the same precision and rounding returns the identical triple.
At precision 1 or 2 a rounding carry to a power of two defeats the
3-low-bit recount check and leaves a stale bitcount (see the
counterexample). -/
theorem normalize_invariants (man exp prec : Int) (r : Rounding) (hp : 3 ≤ prec) :
    (man = 0 → normalize man exp prec r = (0, 0, 0)) ∧
    ((normalize man exp prec r).1 = 0 → normalize man exp prec r = (0, 0, 0)) ∧
    ((normalize man exp prec r).1 ≠ 0 →
      (normalize man exp prec r).1 % 2 = 1 ∧
      (normalize man exp prec r).2.2 = bitcount (normalize man exp prec r).1 ∧
      (normalize man exp prec r).2.2 ≤ prec) ∧
    normalize (normalize man exp prec r).1 (normalize man exp prec r).2.1 prec r =
      normalize man exp prec r := by
  by_cases hman : man = 0
  · subst hman
    rw [normalize_zero]
    exact ⟨fun _ => rfl, fun _ => rfl, fun h => absurd rfl h, normalize_zero 0 prec r⟩
  · obtain ⟨h1, _, h3⟩ := normalize_core man exp prec r hman (by omega)
    have hN := h3 hp
    exact ⟨fun h => absurd h hman, fun h => absurd h h1,
      fun h => ⟨(hN.1.2 h).1, (hN.1.2 h).2, hN.2 h⟩, normalize_fixpoint _ prec r hN⟩

/-- C1 witness: the theorem applied at `normalize 7 0 3 HalfEven`. -/
theorem normalize_invariants_witness :
    (normalize 7 0 3 .half_even).1 % 2 = 1 ∧
    (normalize 7 0 3 .half_even).2.2 = bitcount (normalize 7 0 3 .half_even).1 ∧
    normalize (normalize 7 0 3 .half_even).1 (normalize 7 0 3 .half_even).2.1 3 .half_even =
      normalize 7 0 3 .half_even := by
  have h := normalize_invariants 7 0 3 .half_even (by decide)
  exact ⟨(h.2.2.1 (by decide)).1, (h.2.2.1 (by decide)).2.1, h.2.2.2⟩

/-- C1 counterexample: at precision 1 (the claimed range is precision
≥ 1), `normalize 3 0 1 HalfEven` returns a nonzero triple whose
bitcount field is not the bit-length of its mantissa, and re-normalizing
that output does not reproduce it. -/
theorem normalize_invariants_counterexample :
    (normalize 3 0 1 .half_even).1 ≠ 0 ∧
    (normalize 3 0 1 .half_even).2.2 ≠ bitcount (normalize 3 0 1 .half_even).1 ∧
    normalize (normalize 3 0 1 .half_even).1 (normalize 3 0 1 .half_even).2.1 1 .half_even ≠
      normalize 3 0 1 .half_even := by decide

/-- C2: at `s = (17, 0, 5)` (the number 17), `t = (1, -11, 1)` (the
number 2⁻¹¹), precision 4 and HalfEven rounding, the exponent gap
triggers the shortcut branch of `fadd` (gap 11 > 10, bit-position delta
15 > 4 + 5), which drops the smaller operand and returns
`(1, 4, 1)` = 16, while the general path — align exponents, add the
mantissas exactly, normalize — returns `(9, 1, 4)` = 18, the correctly
rounded value of the exact sum 17 + 2⁻¹¹: the small operand breaks the
rounding tie that the shortcut resolves by the half-even rule. -/
theorem fadd_shortcut_vs_general :
    fadd (17, 0, 5) (1, -11, 1) 4 .half_even = (1, 4, 1) ∧
    fadd_general (17, 0, 5) (1, -11, 1) 4 .half_even = (9, 1, 4) ∧
    fadd (17, 0, 5) (1, -11, 1) 4 .half_even ≠
      fadd_general (17, 0, 5) (1, -11, 1) 4 .half_even := by decide

/-- C5 (amended: exponent 1, bitcount within precision): for a nonzero
value `a` normalized at precision `p`, `fpow(a, -1, p, r)` equals the
inverse of `fpow(a, 1, p, r)` computed by `fdiv` at the same precision
and rounding.  (For exponents n ≥ 2 the source computes the inner power
at precision `p + 3` with floor rounding instead of at `(p, r)`, and for
a value wider than `p` bits the right side re-rounds `a` first; both
make the two sides differ — see the counterexample.) -/
theorem fpow_neg_one_inverse (a : MPF) (p : Int) (r : Rounding)
    (ha : NormalizedAt p a) :
    fpow a (-1) p r = fdiv fone (fpow_nonneg a 1 p r) p r := by
  have hfix : normalize a.1 a.2.1 p r = a := normalize_fixpoint a p r ha
  have hL : fpow a (-1) p r = fdiv fone a p r := by
    simp [fpow]
  have hR : fpow_nonneg a 1 p r = a := by
    simp [fpow_nonneg, hfix]
  rw [hL, hR]

/-- C5 witness: the theorem applied at `a = (3, 0, 2)`, precision 2,
HalfEven. -/
theorem fpow_neg_one_inverse_witness :
    fpow (3, 0, 2) (-1) 2 .half_even =
      fdiv fone (fpow_nonneg (3, 0, 2) 1 2 .half_even) 2 .half_even :=
  fpow_neg_one_inverse (3, 0, 2) 2 .half_even (by decide)

/-- C5 counterexample: two instances of the claim as stated fail.  With
`a = (5, 0, 3)` (normalized, nonzero), n = 1, p = 2, HalfEven, the left
side inverts `a` itself while the right side inverts `a` re-rounded to 2
bits: 3·2⁻⁴ versus 2⁻².  With `a = (3, -2, 2)` (normalized, nonzero,
bitcount ≤ p), n = 2, p = 2, Down, the inner power is computed at
precision 5 with floor rounding on the left but at `(2, Down)` on the
right: 3·2⁻¹ versus 2. -/
theorem fpow_neg_inverse_counterexample :
    (fpow (5, 0, 3) (-1) 2 .half_even = .ok (3, -4, 2) ∧
      fdiv fone (fpow_nonneg (5, 0, 3) 1 2 .half_even) 2 .half_even = .ok (1, -2, 1)) ∧
    (fpow (3, -2, 2) (-2) 2 .down = .ok (3, -1, 2) ∧
      fdiv fone (fpow_nonneg (3, -2, 2) 2 2 .down) 2 .down = .ok (1, 1, 1)) := by decide

/-- C6: dividing by the canonical zero `(0, 0, 0)` fails with the
division-by-zero error raised by the mantissa integer division (the
source has no explicit check), never returning a triple; for any divisor
with nonzero mantissa the division returns a triple, so no other divisor
fails and no infinite or NaN-like value is ever produced. -/
theorem fdiv_by_zero (s : MPF) (prec : Int) (r : Rounding) :
    fdiv s fzero prec r = .error .zeroDivision ∧
    ∀ t : MPF, t.1 ≠ 0 → ∃ v, fdiv s t prec r = .ok v := by
  obtain ⟨m, e, b⟩ := s
  constructor
  · rfl
  · intro t ht
    obtain ⟨tm, te, tb⟩ := t
    exact ⟨_, by simp only [fdiv]; rw [if_neg (show ¬(tm = 0) from ht)]⟩

/-- C6 witness: the theorem applied at `s = fone`, precision 53,
HalfEven, with nonzero divisor `ftwo`. -/
theorem fdiv_by_zero_witness :
    fdiv fone fzero 53 .half_even = .error .zeroDivision ∧
    ∃ v, fdiv fone ftwo 53 .half_even = .ok v :=
  ⟨(fdiv_by_zero fone 53 .half_even).1,
    (fdiv_by_zero fone 53 .half_even).2 ftwo (by decide)⟩

/-- C7: between two Complex values every one of the four ordering
relations raises TypeError and never returns a boolean: `<=`, `>` and
`>=` dispatch to the bound `_compare`, and `<` — whose slot the class
body leaves unbound (the line meant for it rebinds `__gt__`) —
dispatches to the reflected `__gt__` of the right operand, which is
bound to `_compare` and raises. -/
theorem mpc_ordering_raises (op : CmpOp) (d : Bool) :
    mpcRichCompare op d = .error .typeError := by
  cases op <;> rfl

/-- C7 witness: the theorem applied at `op = lt` (the slot the class
body fails to bind) with default `true`. -/
theorem mpc_ordering_raises_witness :
    mpcRichCompare .lt true = .error .typeError :=
  mpc_ordering_raises .lt true

/-- C8: when the convergence test never passes within the 100-iteration
cap, the Halley loop of `lambertw` still hands the caller a plain value
— the 100th iterate — with no error indication: the convergence flag
(false here) reaches only the `print` statement, not the returned value.
Exercised on the never-accepting test over the step `n ↦ n + 1` from 0,
which returns 100. -/
theorem lambertw_nonconvergence_best_effort :
    lambertw_result (fun n : Nat => n + 1) (fun _ _ => false) 0 = 100 ∧
    (lambertw_halley (fun n : Nat => n + 1) (fun _ _ => false) 100 0).1 = false := by
  decide

/-- C9: hashing a Real whose magnitude overflows the native float range
(here `(1, 2048, 1)` = 2^2048) enters the `except OverflowError` branch,
whose expression `hash(self.val)` refers to `self` — a name not among
the function's parameters (the parameter is `s`) — so the call raises
NameError instead of returning the hash of the canonical triple. -/
theorem mpf_hash_overflow_nameerror :
    float_overflows (1, 2048, 1) = true ∧
    mpf_hash (fun _ => 0) (fun _ => 0) (1, 2048, 1) = .error (.nameError "self") ∧
    mpf_hash_params.contains mpf_hash_fallback_var = false := by decide

/-- C10: comparing an `mpf` against a value that is not an mpf, not
complex-valued and not a string, whose conversion to mpf fails, makes
`==` return False and `!=` return True; the conversion failure is
swallowed, not propagated. -/
theorem mpf_eq_swallows_conversion_failure (sval : MPF) (prec : Int) (r : Rounding)
    (t : PyObj)
    (hmpf : ∀ v, t ≠ .pyMpf v)
    (hmpc : ∀ re im, t ≠ .pyMpc re im)
    (hcplx : ∀ a b c d, t ≠ .pyComplex a b c d)
    (hstr : ∀ s, t ≠ .pyStr s)
    (hfail : ∀ v, mpf_new prec r t ≠ .ok v) :
    mpf_eq sval prec r t = .ok false ∧ mpf_ne sval prec r t = .ok true := by
  cases t with
  | pyMpf v => exact absurd rfl (hmpf v)
  | pyMpc re im => exact absurd rfl (hmpc re im)
  | pyComplex a b c d => exact absurd rfl (hcplx a b c d)
  | pyStr s => exact absurd rfl (hstr s)
  | pyInt n => exact absurd rfl (hfail _)
  | pyFloat m e => exact absurd rfl (hfail _)
  | pyOther =>
    constructor
    · rfl
    · rfl

/-- C10 witness: the theorem applied at `sval = fone`, precision 53,
HalfEven, `t = pyOther` (an unrecognized kind whose conversion raises
TypeError). -/
theorem mpf_eq_swallows_conversion_failure_witness :
    mpf_eq fone 53 .half_even .pyOther = .ok false ∧
    mpf_ne fone 53 .half_even .pyOther = .ok true :=
  mpf_eq_swallows_conversion_failure fone 53 .half_even .pyOther
    (fun _ h => PyObj.noConfusion h)
    (fun _ _ h => PyObj.noConfusion h)
    (fun _ _ _ _ h => PyObj.noConfusion h)
    (fun _ h => PyObj.noConfusion h)
    (fun _ h => Except.noConfusion h)

end Mpmath
